import Mathlib

/-
  Shallow embedding of the block-partitioned consistent-hash ring
  (package consistenthash, 32-bit block-partitioned variant).

  Go slices are modelled as immutable lists, Go maps as association
  lists whose keys stay duplicate-free (insert replaces in place).
  Machine integers (uint32) are modelled as Nat; every division that
  the Go code performs on uint32 values is Nat division, which agrees
  with Go on all values below 2^32.  Metrics collection is modelled
  disabled (ch.metrics == nil), which is the default configuration;
  the metrics branches of the Go code do not affect any returned value.
  The single raw slice index of the lookup path (ch.blocks[0][0] in the
  wraparound fallback) is modelled as a checked access whose failure is
  an explicit panic value.
-/

namespace CH

/-- Raw byte strings are lists of byte values. -/
abbrev Bytes := List Nat

/-- A position entry: ring position and the canonical position of the owning node. -/
structure Node where
  key     : Nat
  pointer : Nat
deriving DecidableEq, Repr

/-- math.MaxUint32. -/
def maxUint32 : Nat := 4294967295

/-- Go map read: first binding of the key in the association list. -/
def mapLookup {α : Type} (m : List (Nat × α)) (k : Nat) : Option α :=
  match m with
  | [] => none
  | (k1, v) :: rest => if k1 = k then some v else mapLookup rest k

/-- Go map write: replace the binding in place, or append a fresh one. -/
def mapInsert {α : Type} (m : List (Nat × α)) (k : Nat) (v : α) : List (Nat × α) :=
  match m with
  | [] => [(k, v)]
  | (k1, v1) :: rest => if k1 = k then (k, v) :: rest else (k1, v1) :: mapInsert rest k v

/-- Go map delete: drop the first binding of the key. -/
def mapDelete {α : Type} (m : List (Nat × α)) (k : Nat) : List (Nat × α) :=
  match m with
  | [] => []
  | (k1, v1) :: rest => if k1 = k then rest else (k1, v1) :: mapDelete rest k

/-- The ring state (struct ConsistentHash of the block-partitioned variant). -/
structure ConsistentHash where
  hash              : Bytes → Nat
  replicas          : Nat
  hTable            : List (Nat × Bytes)
  rTable            : List (Nat × Nat)
  blocks            : List (Nat × List Node)
  totalBlocks       : Nat
  totalKeys         : Nat
  blockPartitioning : Nat

/-- New: fresh ring with the option coercions of the Go constructor. -/
def New (defaultReplicas : Nat) (hashFunc : Bytes → Nat) (blockPartitioning : Nat) :
    ConsistentHash :=
  { hash := hashFunc
    replicas := if defaultReplicas < 1 then 1 else defaultReplicas
    hTable := []
    rTable := []
    blocks := []
    totalBlocks := 1
    totalKeys := 0
    blockPartitioning := if blockPartitioning < 1 then 1 else blockPartitioning }

/-- IsEmpty. -/
def IsEmpty (ch : ConsistentHash) : Bool := ch.totalKeys = 0

/-- The four little-endian bytes of a uint32, as written by b.WriteByte calls. -/
def le32 (i : Nat) : Bytes :=
  [i % 256, i / 256 % 256, i / 65536 % 256, i / 16777216 % 256]

/-- Key of the entry at an index (reads of nodes[i].key inside loops). -/
def keyAt (l : List Node) (i : Nat) : Nat := (l.getD i ⟨0, 0⟩).key

/-- Pointer of the entry at an index. -/
def pointerAt (l : List Node) (i : Nat) : Nat := (l.getD i ⟨0, 0⟩).pointer

/-- The loop of Go sort.Search on the half-open interval [i, j). -/
def sortSearchAux (f : Nat → Bool) : Nat → Nat → Nat → Nat
  | 0, i, _ => i
  | fuel+1, i, j =>
    if i < j then
      let h := (i + j) / 2
      if f h then sortSearchAux f fuel i h
      else sortSearchAux f fuel (h + 1) j
    else i

/-- Go sort.Search: least index in [0, n) satisfying f, if f is monotone. -/
def sortSearch (n : Nat) (f : Nat → Bool) : Nat := sortSearchAux f n 0 n

/-- Ordered insertion of a position entry by key. -/
def insertNode (n : Node) : List Node → List Node
  | [] => [n]
  | m :: rest => if n.key < m.key then n :: m :: rest else m :: insertNode n rest

/-- sort.Slice by ascending key (addNodes).  The derived entries this is
applied to never carry two distinct entries with equal keys, so the
unspecified order of the unstable Go sort is immaterial. -/
def sortNodes : List Node → List Node
  | [] => []
  | n :: rest => insertNode n (sortNodes rest)

/-- addNode: insert one entry into its block, ignoring exact duplicates. -/
def addNode (n : Node) (ch : ConsistentHash) : ConsistentHash :=
  let blockSize := maxUint32 / ch.totalBlocks
  let blockNumber := n.key / blockSize
  match mapLookup ch.blocks blockNumber with
  | none =>
      { ch with blocks := mapInsert ch.blocks blockNumber [n]
                totalKeys := ch.totalKeys + 1 }
  | some nodes =>
      let idx := sortSearch nodes.length (fun i => decide (n.key ≤ keyAt nodes i))
      if idx < nodes.length ∧ keyAt nodes idx = n.key then ch
      else
        { ch with blocks := mapInsert ch.blocks blockNumber
                    (nodes.take idx ++ n :: nodes.drop idx)
                  totalKeys := ch.totalKeys + 1 }

/-- The j-scan of balanceBlocks: first index at or after the start whose
entry does not belong to the target block. -/
def scanChunkAux (blockSize targetBlock : Nat) (nodes : List Node) : Nat → Nat → Nat
  | 0, j => j
  | fuel+1, j =>
    if j < nodes.length then
      if keyAt nodes j / blockSize ≠ targetBlock then j
      else scanChunkAux blockSize targetBlock nodes fuel (j + 1)
    else j

def scanChunk (blockSize targetBlock : Nat) (nodes : List Node) (start : Nat) : Nat :=
  scanChunkAux blockSize targetBlock nodes nodes.length start

/-- Inner loop of balanceBlocks over one source block.  The Go loop reads
the local slice nodes, truncates the source block on the first mismatch,
and moves each contiguous chunk in front of its target block; after a
moved chunk [i, j) it continues at index j+1 (i = j followed by i++). -/
def balanceInnerAux (blockSize blockNumber : Nat) (nodes : List Node) :
    Nat → Nat → Nat → List (Nat × List Node) → List (Nat × List Node)
  | 0, _, _, blocks => blocks
  | fuel+1, i, targetBlock, blocks =>
    if i < nodes.length then
      if keyAt nodes i / blockSize = targetBlock then
        balanceInnerAux blockSize blockNumber nodes fuel (i + 1) targetBlock blocks
      else
        let blocks1 :=
          if targetBlock = blockNumber then mapInsert blocks blockNumber (nodes.take i)
          else blocks
        let target1 := targetBlock + 1
        let j := scanChunk blockSize target1 nodes i
        if i ≠ j then
          let tgt := (mapLookup blocks1 target1).getD []
          let blocks2 := mapInsert blocks1 target1 ((nodes.drop i).take (j - i) ++ tgt)
          balanceInnerAux blockSize blockNumber nodes fuel (j + 1) target1 blocks2
        else
          balanceInnerAux blockSize blockNumber nodes fuel (i + 1) target1 blocks1
    else blocks

/-- Outer loop of balanceBlocks over block numbers 0 .. expectedBlocks-2. -/
def balanceOuterAux (blockSize expectedBlocks : Nat) :
    Nat → Nat → List (Nat × List Node) → List (Nat × List Node)
  | 0, _, blocks => blocks
  | fuel+1, blockNumber, blocks =>
    if blockNumber < expectedBlocks - 1 then
      let nodes := (mapLookup blocks blockNumber).getD []
      let blocks1 := balanceInnerAux blockSize blockNumber nodes (nodes.length + 1) 0 blockNumber blocks
      balanceOuterAux blockSize expectedBlocks fuel (blockNumber + 1) blocks1
    else blocks

/-- balanceBlocks: grow the block count when expectedBlocks/2 exceeds the
current count; the shrink branch of the source is an unimplemented TODO. -/
def balanceBlocks (expectedBlocks : Nat) (ch : ConsistentHash) : ConsistentHash :=
  let ch1 :=
    if ch.totalBlocks < expectedBlocks / 2 then
      let blockSize := maxUint32 / expectedBlocks
      { ch with blocks := balanceOuterAux blockSize expectedBlocks expectedBlocks 0 ch.blocks
                totalBlocks := expectedBlocks }
    else ch
  if ch1.totalBlocks < 1 then { ch1 with totalBlocks := 1 } else ch1

/-- addNodes: sort the batch, maybe rebalance, then insert entry by entry. -/
def addNodes (nodes : List Node) (ch : ConsistentHash) : ConsistentHash :=
  let sorted := sortNodes nodes
  let expectedBlocks := (ch.totalKeys + nodes.length) / ch.blockPartitioning
  let ch1 := balanceBlocks expectedBlocks ch
  sorted.foldl (fun c n => addNode n c) ch1

/-- One iteration of the key loop of add.  The threaded triple is the
ring (hTable and rTable writes happen inside the loop), the accumulated
batch of new entries, and the current value of the Go variable hash,
which is only reassigned inside the replica loop and is therefore stale
when it seeds the rTable write (it starts the loop at its zero value). -/
def addKey (repl : Nat) (st : ConsistentHash × List Node × Nat) (key : Bytes) :
    ConsistentHash × List Node × Nat :=
  let ch := st.1
  let acc := st.2.1
  let hcur := st.2.2
  let originalHash := ch.hash key
  let ch1 := { ch with hTable := mapInsert ch.hTable originalHash key }
  let replicaHashes := (List.range (repl - 1)).map (fun k => ch.hash (key ++ le32 (k + 1)))
  let acc1 := acc ++ Node.mk originalHash originalHash ::
    replicaHashes.map (fun h => Node.mk h originalHash)
  let hcur1 := (replicaHashes.getLast?).getD hcur
  let ch2 :=
    { ch1 with rTable :=
        if repl ≠ ch1.replicas then mapInsert ch1.rTable hcur1 repl else ch1.rTable }
  (ch2, acc1, hcur1)

/-- add: write values and replica counts, derive all entries, insert them. -/
def add (repl : Nat) (keys : List Bytes) (ch : ConsistentHash) : ConsistentHash :=
  let st := keys.foldl (addKey repl) (ch, [], 0)
  addNodes st.2.1 st.1

/-- Add: insert with the default replica count of the ring. -/
def Add (keys : List Bytes) (ch : ConsistentHash) : ConsistentHash :=
  add ch.replicas keys ch

/-- AddReplicas: insert with an explicit replica count; below 1 is a no-op. -/
def AddReplicas (repl : Nat) (keys : List Bytes) (ch : ConsistentHash) : ConsistentHash :=
  if repl < 1 then ch else add repl keys ch

/-- Drop the first entry with the given key, reporting whether one was found. -/
def removeFirst (h : Nat) : List Node → Option (List Node)
  | [] => none
  | n :: rest =>
    if n.key = h then some rest
    else (removeFirst h rest).map (fun l => n :: l)

/-- removeFromBlock: delete one position from its block; deleting the
canonical position also deletes the value from the hash table. -/
def removeFromBlock (h originalHash : Nat) (ch : ConsistentHash) : ConsistentHash :=
  let blockSize := maxUint32 / ch.totalBlocks
  let blockNumber := h / blockSize
  match mapLookup ch.blocks blockNumber with
  | none => ch
  | some nodes =>
    let ch1 :=
      match removeFirst h nodes with
      | some rest =>
          { ch with blocks := mapInsert ch.blocks blockNumber rest
                    totalKeys := ch.totalKeys - 1 }
      | none => ch
    if originalHash = h then { ch1 with hTable := mapDelete ch1.hTable originalHash }
    else ch1

/-- Remove: always returns true; looks the replica count up in rTable
keyed by the canonical hash, falling back to the ring default. -/
def Remove (key : Bytes) (ch : ConsistentHash) : Bool × ConsistentHash :=
  if ch.totalKeys = 0 then (true, ch)
  else
    let originalHash := ch.hash key
    let found := (mapLookup ch.rTable originalHash).isSome
    let replicas := (mapLookup ch.rTable originalHash).getD ch.replicas
    let ch1 := removeFromBlock originalHash originalHash ch
    let ch2 := (List.range (replicas - 1)).foldl
      (fun c k => removeFromBlock (c.hash (key ++ le32 (k + 1))) originalHash c) ch1
    let ch3 :=
      if found then { ch2 with rTable := mapDelete ch2.rTable originalHash } else ch2
    (true, ch3)

/-- Result of Get: a value (possibly nil), a runtime index panic, or fuel
exhaustion of the bounded model of the lookup loop (never reached on the
states evaluated below). -/
inductive GetOut where
  | val (v : Option Bytes)
  | panic
  | fuelOut
deriving DecidableEq, Repr

/-- The wraparound fallback scan after the main lookup loop: scan block
numbers below the map size for a non-empty block, then read the head of
block 0 — a runtime panic when block 0 is absent or empty. -/
def fallbackAux (ch : ConsistentHash) : Nat → Nat → GetOut
  | 0, _ => .fuelOut
  | fuel+1, j =>
    if j < ch.blocks.length then
      if 0 < ((mapLookup ch.blocks j).getD []).length then
        match (mapLookup ch.blocks 0).getD [] with
        | [] => .panic
        | n0 :: _ => .val (mapLookup ch.hTable n0.pointer)
      else fallbackAux ch fuel (j + 1)
    else .val none

/-- Main loop of lookup over block numbers, with the single wraparound. -/
def lookupAux (ch : ConsistentHash) (h : Nat) : Nat → Nat → Bool → GetOut
  | 0, _, _ => .fuelOut
  | fuel+1, blockNumber, fullCircle =>
    if blockNumber < ch.totalBlocks then
      match mapLookup ch.blocks blockNumber with
      | none => lookupAux ch h fuel (blockNumber + 1) fullCircle
      | some nodes =>
        let idx := sortSearch nodes.length (fun i => decide (h ≤ keyAt nodes i))
        if idx = nodes.length then
          if blockNumber = ch.totalBlocks - 1 ∧ fullCircle = false then
            lookupAux ch h fuel 1 true
          else lookupAux ch h fuel (blockNumber + 1) fullCircle
        else .val (mapLookup ch.hTable (pointerAt nodes idx))
    else
      if blockNumber = ch.totalBlocks then fallbackAux ch (ch.blocks.length + 1) 0
      else .val none

/-- lookup: block number of the hash, then the bounded main loop. -/
def lookup (ch : ConsistentHash) (h : Nat) : GetOut :=
  let blockSize := maxUint32 / ch.totalBlocks
  let blockNumber := h / blockSize
  lookupAux ch h (2 * ch.totalBlocks + 2) blockNumber false

/-- Get: nil on the empty ring, exact-match short-circuit, else lookup. -/
def Get (ch : ConsistentHash) (key : Bytes) : GetOut :=
  if ch.totalKeys = 0 then .val none
  else
    let h := ch.hash key
    match mapLookup ch.hTable h with
    | some v => .val (some v)
    | none => lookup ch h

/-- All stored position entries, across every block. -/
def allNodes (ch : ConsistentHash) : List Node :=
  (ch.blocks.map Prod.snd).flatten

/-- All stored positions, across every block. -/
def storedKeys (ch : ConsistentHash) : List Nat :=
  (allNodes ch).map Node.key

/-- Whether a position occurs in some block. -/
def keyInBlocks (ch : ConsistentHash) (h : Nat) : Bool :=
  ch.blocks.any (fun p => p.2.any (fun n => n.key = h))

/-- Modelled from the spec: the unpartitioned reference search of the
LookupEngine contract.  Resolve the query hash against the full sorted
set of stored positions: exact-match short-circuit, then the smallest
stored position at or above the hash, wrapping to the smallest stored
position when none is, and finally the owner bytes from the value store. -/
def linearGet (ch : ConsistentHash) (key : Bytes) : Option Bytes :=
  if ch.totalKeys = 0 then none
  else
    let h := ch.hash key
    match mapLookup ch.hTable h with
    | some v => some v
    | none =>
      let ns := sortNodes (allNodes ch)
      match ns.find? (fun n => decide (h ≤ n.key)) with
      | some n => mapLookup ch.hTable n.pointer
      | none =>
        match ns with
        | [] => none
        | n :: _ => mapLookup ch.hTable n.pointer

/-- Strict ascending order of a list of positions. -/
def strictSorted : List Nat → Bool
  | [] => true
  | [_] => true
  | a :: b :: rest => decide (a < b) && strictSorted (b :: rest)

/-- Keys of a block, in stored order. -/
def nodeKeys (l : List Node) : List Nat := l.map Node.key

/-- Every block is strictly sorted. -/
def allBlocksSortedB (ch : ConsistentHash) : Bool :=
  ch.blocks.all (fun p => strictSorted (nodeKeys p.2))

/-- Every position of a lower-numbered block is below every position of a
higher-numbered block. -/
def crossSortedB (ch : ConsistentHash) : Bool :=
  ch.blocks.all (fun p => ch.blocks.all (fun q =>
    !(decide (p.1 < q.1)) || p.2.all (fun n => q.2.all (fun m => decide (n.key < m.key)))))

/-- The block-index invariant of the spec: strict order inside each block
and global order across blocks. -/
def invariantB (ch : ConsistentHash) : Bool :=
  allBlocksSortedB ch && crossSortedB ch

/-- The batch of entries that add derives for one value. -/
def derivedNodes (hash : Bytes → Nat) (repl : Nat) (key : Bytes) : List Node :=
  let originalHash := hash key
  Node.mk originalHash originalHash ::
    (List.range (repl - 1)).map (fun k => Node.mk (hash (key ++ le32 (k + 1))) originalHash)

/-- Whether the position of an entry is already present in its target block. -/
def nodeStoredB (ch : ConsistentHash) (n : Node) : Bool :=
  match mapLookup ch.blocks (n.key / (maxUint32 / ch.totalBlocks)) with
  | some l => (nodeKeys l).contains n.key
  | none => false

/-
  Concrete scenarios.  Each hash function below is a caller-supplied
  HashFunc, a total deterministic map from byte strings to uint32 values,
  given by a finite table; every unlisted byte string hashes to 0.
-/

/-- The identity hash on the decimal-string keys of the concrete spec
scenario, extended to the replica byte strings key plus little-endian
uint32 index the way the own test hash of the repository does: the replica
strings of value b"6" hash to 61 and 62, and so on. -/
def hashC4 (b : Bytes) : Nat :=
  if b = [54] then 6 else
  if b = [52] then 4 else
  if b = [50] then 2 else
  if b = [56] then 8 else
  if b = [54, 1, 0, 0, 0] then 61 else
  if b = [54, 2, 0, 0, 0] then 62 else
  if b = [52, 1, 0, 0, 0] then 41 else
  if b = [52, 2, 0, 0, 0] then 42 else
  if b = [50, 1, 0, 0, 0] then 21 else
  if b = [50, 2, 0, 0, 0] then 22 else
  if b = [56, 1, 0, 0, 0] then 81 else
  if b = [56, 2, 0, 0, 0] then 82 else
  if b = [49, 49] then 11 else
  if b = [50, 51] then 23 else
  if b = [52, 55] then 47 else
  if b = [54, 51] then 63 else 0

/-- After add("6"), add("4"), add("2") with default replicas 3. -/
def chC4a : ConsistentHash := Add [[54], [52], [50]] (New 3 hashC4 1)

/-- After additionally add("8"). -/
def chC4b : ConsistentHash := Add [[56]] chC4a

/-- After then remove("8"). -/
def chC4c : ConsistentHash := (Remove [56] chC4b).2

/-- A hash placing one node at position MaxUint32 and one query at 5. -/
def hashC1 (b : Bytes) : Nat :=
  if b = [7] then 4294967295 else if b = [3] then 5 else 0

/-- One node whose position is MaxUint32, reached by a single Add. -/
def chC1 : ConsistentHash := Add [[7]] (New 1 hashC1 1)

/-- A hash giving value b"\x02" the canonical position 20 and its first
replica the position 30. -/
def hashC2 (b : Bytes) : Nat :=
  if b = [2] then 20 else if b = [2, 1, 0, 0, 0] then 30 else 0

/-- AddReplicas(2, ...) on a ring whose default replica count is 3. -/
def chC2 : ConsistentHash := AddReplicas 2 [[2]] (New 3 hashC2 1)

/-- The same ring after Remove of that value. -/
def chC2r : ConsistentHash := (Remove [2] chC2).2

/-- Four stored positions inside block 2 of 4, and a larger query hash. -/
def hashC3 (b : Bytes) : Nat :=
  if b = [1] then 2147483650 else if b = [2] then 2147483651 else
  if b = [3] then 2147483652 else if b = [4] then 2147483653 else
  if b = [9] then 4000000000 else 0

/-- One Add of four values; the rebalance sets totalBlocks to 4 and every
stored position lands in block 2. -/
def chC3 : ConsistentHash := Add [[1], [2], [3], [4]] (New 1 hashC3 1)

/-- Positions for the add-remove inverse scenario. -/
def hashC5 (b : Bytes) : Nat :=
  if b = [1] then 10 else if b = [2] then 20 else
  if b = [2, 1, 0, 0, 0] then 30 else if b = [3] then 25 else 0

/-- The base ring that never saw the value b"\x02". -/
def chC5S : ConsistentHash := Add [[1]] (New 1 hashC5 1)

/-- The base ring after AddReplicas(2, b"\x02") followed by Remove. -/
def chC5T : ConsistentHash := (Remove [2] (AddReplicas 2 [[2]] chC5S)).2

/-- Six positions: four in old block 0, straddling the new block 2
boundary, and two in old block 1, under blocks of width MaxUint32/4
about to be rebalanced to width MaxUint32/10. -/
def hashC6 (b : Bytes) : Nat :=
  if b = [0] then 100 else
  if b = [1] then 429496729 else
  if b = [2] then 429496730 else
  if b = [3] then 1073741821 else
  if b = [4] then 1073741822 else
  if b = [5] then 1073741823 else 0

/-- First batch of four values: totalBlocks grows to 4 while the block
map is still empty, then the four entries land in block 0. -/
def chC6a : ConsistentHash := Add [[0], [1], [2], [3]] (New 1 hashC6 1)

/-- Second batch of two values, below the rebalance threshold. -/
def chC6b : ConsistentHash := Add [[4], [5]] chC6a

/-- Re-adding four values that are already present triggers the
rebalance to 10 blocks. -/
def chC6c : ConsistentHash := Add [[0], [1], [2], [4]] chC6b

/-- One position in block 0 of 4 and three in block 1, plus a query hash
above every stored position. -/
def hashC8 (b : Bytes) : Nat :=
  if b = [1] then 100 else if b = [2] then 1073741828 else
  if b = [3] then 1073741829 else if b = [4] then 1073741830 else
  if b = [9] then 4000000000 else 0

/-- Add of four values then Remove of the single block-0 value: block 0
stays present in the block map but becomes empty. -/
def chC8 : ConsistentHash := (Remove [1] (Add [[1], [2], [3], [4]] (New 1 hashC8 1))).2

/-- One stored position at 10; every other byte string hashes to 0. -/
def hashC9 (b : Bytes) : Nat := if b = [1] then 10 else 0

/-- A one-node ring used to instantiate the universal theorems. -/
def chC9 : ConsistentHash := Add [[1]] (New 1 hashC9 1)

/-- A bare state with three blocks, used to instantiate the rebalance
threshold theorem. -/
def chC7 : ConsistentHash :=
  { hash := hashC9, replicas := 1, hTable := [], rTable := [], blocks := [],
    totalBlocks := 3, totalKeys := 0, blockPartitioning := 1 }

/-
  Helper lemmas.
-/

theorem mapLookup_mem {α : Type} :
    ∀ (m : List (Nat × α)) (k : Nat) (v : α), mapLookup m k = some v → (k, v) ∈ m
  | [], k, v, h => by simp [mapLookup] at h
  | (k1, v1) :: rest, k, v, h => by
    rw [mapLookup] at h
    by_cases hk : k1 = k
    · rw [if_pos hk] at h
      injection h with hv
      subst hk; subst hv
      exact List.mem_cons_self _ _
    · rw [if_neg hk] at h
      exact List.mem_cons_of_mem _ (mapLookup_mem rest k v h)

theorem mapDelete_of_lookup_none {α : Type} :
    ∀ (m : List (Nat × α)) (k : Nat), mapLookup m k = none → mapDelete m k = m
  | [], _, _ => rfl
  | (k1, v1) :: rest, k, h => by
    rw [mapLookup] at h
    by_cases hk : k1 = k
    · rw [if_pos hk] at h; exact absurd h (by simp)
    · rw [mapDelete, if_neg hk, mapDelete_of_lookup_none rest k (by rwa [if_neg hk] at h)]

theorem removeFirst_of_forall_ne :
    ∀ (l : List Node) (h : Nat), (∀ n ∈ l, n.key ≠ h) → removeFirst h l = none
  | [], _, _ => rfl
  | n :: rest, h, hl => by
    rw [removeFirst, if_neg (hl n (List.mem_cons_self _ _)),
      removeFirst_of_forall_ne rest h (fun m hm => hl m (List.mem_cons_of_mem _ hm))]
    rfl

theorem not_stored_of_keyInBlocks_false {ch : ConsistentHash} {h : Nat}
    (hk : keyInBlocks ch h = false) :
    ∀ p ∈ ch.blocks, ∀ n ∈ p.2, n.key ≠ h := by
  intro p hp n hn he
  have : ch.blocks.any (fun p => p.2.any (fun n => n.key = h)) = true :=
    List.any_eq_true.mpr ⟨p, hp, List.any_eq_true.mpr ⟨n, hn, by simp [he]⟩⟩
  rw [keyInBlocks] at hk
  rw [this] at hk
  exact Bool.noConfusion hk

/-- balanceBlocks is the identity whenever the growth guard fails. -/
theorem balanceBlocks_noop (ch : ConsistentHash) (E : Nat)
    (hT : 1 ≤ ch.totalBlocks) (hE : E / 2 ≤ ch.totalBlocks) :
    balanceBlocks E ch = ch := by
  rw [balanceBlocks]
  rw [if_neg (by omega : ¬ ch.totalBlocks < E / 2)]
  rw [if_neg (by omega : ¬ ch.totalBlocks < 1)]

/-- removeFromBlock is the identity when the position is not stored and
the owner hash is absent from the value table. -/
theorem removeFromBlock_noop (ch : ConsistentHash) (h oh : Nat)
    (hstored : keyInBlocks ch h = false)
    (hh : mapLookup ch.hTable oh = none) :
    removeFromBlock h oh ch = ch := by
  cases hb : mapLookup ch.blocks (h / (maxUint32 / ch.totalBlocks)) with
  | none => simp only [removeFromBlock, hb]
  | some nodes =>
      have hne : ∀ n ∈ nodes, n.key ≠ h :=
        fun n hn => not_stored_of_keyInBlocks_false hstored _ (mapLookup_mem _ _ _ hb) n hn
      simp only [removeFromBlock, hb, removeFirst_of_forall_ne nodes h hne]
      by_cases hoh : oh = h
      · simp only [if_pos hoh, mapDelete_of_lookup_none _ _ hh]
      · simp only [if_neg hoh]

theorem foldl_removeFromBlock_noop (ch : ConsistentHash) (X : Bytes) (oh : Nat)
    (hh : mapLookup ch.hTable oh = none) :
    ∀ l : List Nat,
      (∀ k ∈ l, keyInBlocks ch (ch.hash (X ++ le32 (k + 1))) = false) →
      l.foldl (fun c k => removeFromBlock (c.hash (X ++ le32 (k + 1))) oh c) ch = ch
  | [], _ => rfl
  | k :: rest, hl => by
    rw [List.foldl_cons,
      removeFromBlock_noop ch _ oh (hl k (List.mem_cons_self _ _)) hh]
    exact foldl_removeFromBlock_noop ch X oh hh rest
      (fun m hm => hl m (List.mem_cons_of_mem _ hm))

/-
  Claim theorems.
-/

/-- C9: for every ring state (including the empty ring) and every value X
whose canonical hash and derived replica positions are nowhere recorded
(X not present in the ring), Remove returns true and leaves the whole
state — value store, replica table, block index, total key count —
unchanged. -/
theorem claim_C9 (ch : ConsistentHash) (X : Bytes)
    (h1 : mapLookup ch.rTable (ch.hash X) = none)
    (h2 : mapLookup ch.hTable (ch.hash X) = none)
    (h3 : keyInBlocks ch (ch.hash X) = false)
    (h4 : ∀ k ∈ List.range (ch.replicas - 1),
            keyInBlocks ch (ch.hash (X ++ le32 (k + 1))) = false) :
    Remove X ch = (true, ch) := by
  by_cases hempty : ch.totalKeys = 0
  · simp only [Remove, if_pos hempty]
  · simp only [Remove, if_neg hempty, h1, Option.isSome_none, Option.getD_none,
      removeFromBlock_noop ch _ _ h3 h2]
    rw [foldl_removeFromBlock_noop ch X _ h2 _ h4]
    simp

/-- C9 witness: a concrete one-node ring and a value that was never
added; the hypotheses hold and Remove is the identity on the state. -/
theorem claim_C9_witness :
    mapLookup chC9.rTable (chC9.hash [9]) = none ∧
    mapLookup chC9.hTable (chC9.hash [9]) = none ∧
    keyInBlocks chC9 (chC9.hash [9]) = false ∧
    (∀ k ∈ List.range (chC9.replicas - 1),
      keyInBlocks chC9 (chC9.hash ([9] ++ le32 (k + 1))) = false) ∧
    Remove [9] chC9 = (true, chC9) :=
  ⟨by decide, by decide, by decide, by decide,
    claim_C9 chC9 [9] (by decide) (by decide) (by decide) (by decide)⟩

/-- C1: on the reachable one-node ring whose stored position is
MaxUint32 (the entry lands in block index totalBlocks, beyond the reach
of the partitioned loop and of the fallback scan), the block-partitioned
path returns nil for a query hashing to 5, while the unpartitioned
successor search over the full sorted set of stored positions returns
the node bytes.  The partitioned and unpartitioned paths disagree, so
the equivalence contract fails on the code. -/
theorem claim_C1 :
    chC1.totalKeys = 1 ∧
    (storedKeys chC1).contains 4294967295 = true ∧
    Get chC1 [3] = .val none ∧
    linearGet chC1 [3] = some [7] := by decide

/-- C2: AddReplicas(2, X) on a ring whose default replica count is 3
records the count keyed by the last replica position 30, not by the
canonical position 20 = hash(X), and a subsequent Remove therefore finds
nothing under the canonical position and leaves the entry behind. -/
theorem claim_C2 :
    chC2.hash [2] = 20 ∧
    mapLookup chC2.rTable 20 = none ∧
    mapLookup chC2.rTable 30 = some 2 ∧
    mapLookup chC2r.rTable 30 = some 2 := by decide

/-- C3: a reachable non-empty ring whose four stored positions all live
in block 2 of 4; for a query hash above every stored position, Get
returns nil instead of the bytes of the node owning the smallest stored
position (value [1] at position 2147483650). -/
theorem claim_C3 :
    chC3.totalKeys = 4 ∧
    (storedKeys chC3).all (fun k => decide (k < hashC3 [9])) = true ∧
    mapLookup chC3.hTable 2147483650 = some [1] ∧
    Get chC3 [9] = .val none := by decide

/-- C4: the concrete scenario with the identity hash on decimal-string
keys and default replicas 3: after add("6"), add("4"), add("2"),
get("11") = "2", get("23") = "4", get("47") = "6", get("63") = "2";
after add("8"), get("63") = "8"; after remove("8"), get("63") = "2". -/
theorem claim_C4 :
    Get chC4a [49, 49] = .val (some [50]) ∧
    Get chC4a [50, 51] = .val (some [52]) ∧
    Get chC4a [52, 55] = .val (some [54]) ∧
    Get chC4a [54, 51] = .val (some [50]) ∧
    Get chC4b [54, 51] = .val (some [56]) ∧
    Get chC4c [54, 51] = .val (some [50]) := by decide

/-- C5: adding X with an explicit replica count of 2 (default 1) and
removing it does not restore get for another key: the replica count was
recorded under the last replica position, Remove falls back to the
default count 1 and leaves the replica position 30 of X dangling, so the
query hashing to 25 now resolves to a deleted owner and returns nil
instead of the original node bytes. -/
theorem claim_C5 :
    Get chC5S [3] = .val (some [1]) ∧
    Get chC5T [3] = .val none := by decide

/-- C6: the Add that triggers the rebalance from 4 to 10 blocks breaks
the block-index invariant: before the call every block is strictly
sorted and globally ordered, afterwards block 2 holds the keys
[1073741822, 1073741823, 1073741822], which is not strictly sorted. -/
theorem claim_C6 :
    invariantB chC6b = true ∧ invariantB chC6c = false := by decide

/-- C8: on a reachable non-empty ring whose block 0 is present but empty
(one add of four values, then removal of the only block-0 value), a
query hashing above every stored position drives the wraparound fallback
to index into the empty block 0 — a runtime out-of-range panic. -/
theorem claim_C8 :
    chC8.totalKeys = 3 ∧ Get chC8 [9] = .panic := by decide

/-- C10 counterexample: re-adding four values that are all present (same
bytes, same default replica count, every position already stored)
changes both the stored position set and totalKeys, because the add
triggers the faulty rebalance: position 1073741821 is lost and
totalKeys grows from 6 to 7. -/
theorem claim_C10_counterexample :
    mapLookup chC6b.hTable (hashC6 [0]) = some [0] ∧
    mapLookup chC6b.hTable (hashC6 [1]) = some [1] ∧
    mapLookup chC6b.hTable (hashC6 [2]) = some [2] ∧
    mapLookup chC6b.hTable (hashC6 [4]) = some [4] ∧
    (storedKeys chC6b).contains (hashC6 [0]) = true ∧
    (storedKeys chC6b).contains (hashC6 [1]) = true ∧
    (storedKeys chC6b).contains (hashC6 [2]) = true ∧
    (storedKeys chC6b).contains (hashC6 [4]) = true ∧
    chC6c.totalKeys = 7 ∧
    chC6b.totalKeys = 6 ∧
    (storedKeys chC6b).contains 1073741821 = true ∧
    (storedKeys chC6c).contains 1073741821 = false := by decide

/-- C7: totalBlocks changes only when the expected block count reaches
the growth or shrink threshold, and in the whole region strictly between
the thresholds the rebalance leaves the state — block count and block
contents — unchanged. -/
theorem claim_C7 (ch : ConsistentHash) (E : Nat) (hT : 1 ≤ ch.totalBlocks) :
    ((balanceBlocks E ch).totalBlocks ≠ ch.totalBlocks →
      2 * ch.totalBlocks ≤ E ∨ E ≤ ch.totalBlocks / 2) ∧
    (ch.totalBlocks / 2 < E → E < 2 * ch.totalBlocks → balanceBlocks E ch = ch) := by
  constructor
  · intro hne
    by_cases hcase : 2 * ch.totalBlocks ≤ E
    · exact Or.inl hcase
    · exact absurd (by rw [balanceBlocks_noop ch E hT (by omega)]) hne
  · intro _ hlt
    exact balanceBlocks_noop ch E hT (by omega)

/-- C7 witness: a state with three blocks and expected count 4, strictly
between the thresholds 2 and 6. -/
theorem claim_C7_witness :
    1 ≤ chC7.totalBlocks ∧
    (((balanceBlocks 4 chC7).totalBlocks ≠ chC7.totalBlocks →
        2 * chC7.totalBlocks ≤ 4 ∨ 4 ≤ chC7.totalBlocks / 2) ∧
      (chC7.totalBlocks / 2 < 4 → 4 < 2 * chC7.totalBlocks → balanceBlocks 4 chC7 = chC7)) :=
  ⟨by decide, claim_C7 chC7 4 (by decide)⟩

/-
  Binary search and sorted-block lemmas, used for the amended C10.
-/

theorem sortSearchAux_spec (f : Nat → Bool) (n : Nat)
    (hmono : ∀ a b, a ≤ b → b < n → f a = true → f b = true) :
    ∀ (fuel i j : Nat), i ≤ j → j ≤ n → j - i ≤ fuel →
      (∀ x, x < i → f x = false) →
      (∀ x, j ≤ x → x < n → f x = true) →
      i ≤ sortSearchAux f fuel i j ∧
      sortSearchAux f fuel i j ≤ j ∧
      (∀ x, x < sortSearchAux f fuel i j → f x = false) ∧
      (∀ x, sortSearchAux f fuel i j ≤ x → x < n → f x = true) := by
  intro fuel
  induction fuel with
  | zero =>
    intro i j hij hjn hfuel hlo hhi
    have hij2 : i = j := by omega
    subst hij2
    rw [sortSearchAux]
    exact ⟨le_refl _, le_refl _, hlo, fun x hx hxn => hhi x hx hxn⟩
  | succ fuel ih =>
    intro i j hij hjn hfuel hlo hhi
    rw [sortSearchAux]
    by_cases hlt : i < j
    · rw [if_pos hlt]
      have hm1 : i ≤ (i + j) / 2 := by omega
      have hm2 : (i + j) / 2 < j := by omega
      by_cases hf : f ((i + j) / 2) = true
      · rw [if_pos hf]
        have := ih i ((i + j) / 2) hm1 (by omega) (by omega) hlo
          (fun x hx hxn => hmono _ x hx hxn hf)
        exact ⟨this.1, by omega, this.2.2.1, this.2.2.2⟩
      · rw [if_neg hf]
        have hlo2 : ∀ x, x < (i + j) / 2 + 1 → f x = false := by
          intro x hx
          by_cases hxi : x < i
          · exact hlo x hxi
          · by_cases hfx : f x = true
            · exact absurd (hmono x _ (by omega) (by omega) hfx) hf
            · exact Bool.eq_false_iff.mpr hfx
        have := ih ((i + j) / 2 + 1) j (by omega) hjn (by omega) hlo2 hhi
        exact ⟨by omega, this.2.1, this.2.2.1, this.2.2.2⟩
    · rw [if_neg hlt]
      have hij2 : i = j := by omega
      subst hij2
      exact ⟨le_refl _, le_refl _, hlo, fun x hx hxn => hhi x hx hxn⟩

theorem sortSearch_spec (f : Nat → Bool) (n : Nat)
    (hmono : ∀ a b, a ≤ b → b < n → f a = true → f b = true) :
    sortSearch n f ≤ n ∧
    (∀ x, x < sortSearch n f → f x = false) ∧
    (∀ x, sortSearch n f ≤ x → x < n → f x = true) := by
  have base := sortSearchAux_spec f n hmono n 0 n (Nat.zero_le n) (le_refl n) (by omega)
    (fun x hx => absurd hx (Nat.not_lt_zero x)) (fun x hx hxn => absurd hxn (by omega))
  exact ⟨base.2.1, base.2.2.1, base.2.2.2⟩

theorem strictSorted_keyAt_adj : ∀ (l : List Node),
    strictSorted (nodeKeys l) = true → ∀ i, i + 1 < l.length →
      keyAt l i < keyAt l (i + 1)
  | [], _, i, h => absurd h (by simp)
  | [_], _, i, h => absurd h (by simp)
  | n :: m :: rest, hs, i, h => by
    have hsplit : (decide (n.key < m.key) && strictSorted (nodeKeys (m :: rest))) = true := hs
    have hnm := (Bool.and_eq_true _ _ |>.mp hsplit).1
    have htail := (Bool.and_eq_true _ _ |>.mp hsplit).2
    match i with
    | 0 => exact of_decide_eq_true hnm
    | Nat.succ i =>
      exact strictSorted_keyAt_adj (m :: rest) htail i (by simp at h ⊢; omega)

theorem strictSorted_keyAt_mono (l : List Node)
    (hs : strictSorted (nodeKeys l) = true) :
    ∀ a b, a ≤ b → b < l.length → keyAt l a ≤ keyAt l b := by
  intro a b hab
  induction hab with
  | refl => intro _; exact le_refl _
  | @step m hm ih =>
    intro hlt
    exact le_trans (ih (by omega)) (le_of_lt (strictSorted_keyAt_adj l hs m hlt))

theorem exists_index_of_contains_key (l : List Node) (k : Nat)
    (h : (nodeKeys l).contains k = true) :
    ∃ m, m < l.length ∧ keyAt l m = k := by
  have hmem : k ∈ nodeKeys l := by simpa using h
  obtain ⟨n, hn, hk⟩ := List.mem_map.mp hmem
  obtain ⟨m, hm, he⟩ := List.mem_iff_getElem.mp hn
  refine ⟨m, hm, ?_⟩
  rw [keyAt, List.getD_eq_getElem _ _ hm, he, hk]

theorem sortSearch_dup (l : List Node) (k : Nat)
    (hs : strictSorted (nodeKeys l) = true)
    (hmem : (nodeKeys l).contains k = true) :
    sortSearch l.length (fun i => decide (k ≤ keyAt l i)) < l.length ∧
    keyAt l (sortSearch l.length (fun i => decide (k ≤ keyAt l i))) = k := by
  obtain ⟨m, hm, hkm⟩ := exists_index_of_contains_key l k hmem
  have hmono : ∀ a b, a ≤ b → b < l.length →
      decide (k ≤ keyAt l a) = true → decide (k ≤ keyAt l b) = true := by
    intro a b hab hb ha
    exact decide_eq_true
      (le_trans (of_decide_eq_true ha) (strictSorted_keyAt_mono l hs a b hab hb))
  obtain ⟨hle, hlo, hhi⟩ := sortSearch_spec _ l.length hmono
  have hfm : decide (k ≤ keyAt l m) = true := decide_eq_true (by omega)
  have hrm : sortSearch l.length (fun i => decide (k ≤ keyAt l i)) ≤ m := by
    by_contra hgt
    have := hlo m (by omega)
    rw [hfm] at this
    exact Bool.noConfusion this
  have hrlen : sortSearch l.length (fun i => decide (k ≤ keyAt l i)) < l.length := by omega
  have h1 : k ≤ keyAt l (sortSearch l.length (fun i => decide (k ≤ keyAt l i))) :=
    of_decide_eq_true (hhi _ (le_refl _) hrlen)
  have h2 : keyAt l (sortSearch l.length (fun i => decide (k ≤ keyAt l i))) ≤ keyAt l m :=
    strictSorted_keyAt_mono l hs _ m hrm hm
  exact ⟨hrlen, by omega⟩

/-- Inserting an entry whose position already sits in its (strictly
sorted) target block is the identity on the whole state. -/
theorem addNode_dup (ch : ConsistentHash) (n : Node)
    (hstored : nodeStoredB ch n = true)
    (hsorted : allBlocksSortedB ch = true) :
    addNode n ch = ch := by
  cases hb : mapLookup ch.blocks (n.key / (maxUint32 / ch.totalBlocks)) with
  | none =>
    simp only [nodeStoredB, hb] at hstored
    exact Bool.noConfusion hstored
  | some l =>
    simp only [nodeStoredB, hb] at hstored
    have hsl : strictSorted (nodeKeys l) = true :=
      List.all_eq_true.mp hsorted _ (mapLookup_mem _ _ _ hb)
    obtain ⟨hlt, hk⟩ := sortSearch_dup l n.key hsl hstored
    simp only [addNode, hb]
    rw [if_pos ⟨hlt, hk⟩]

theorem foldl_addNode_dup (ch : ConsistentHash)
    (hsorted : allBlocksSortedB ch = true) :
    ∀ ns : List Node, (∀ n ∈ ns, nodeStoredB ch n = true) →
      ns.foldl (fun c n => addNode n c) ch = ch
  | [], _ => rfl
  | n :: rest, h => by
    rw [List.foldl_cons, addNode_dup ch n (h n (List.mem_cons_self _ _)) hsorted]
    exact foldl_addNode_dup ch hsorted rest (fun m hm => h m (List.mem_cons_of_mem _ hm))

theorem mem_insertNode : ∀ (l : List Node) (n m : Node),
    n ∈ insertNode m l → n = m ∨ n ∈ l
  | [], n, m, h => by
    rw [insertNode] at h
    simp at h
    exact Or.inl h
  | p :: rest, n, m, h => by
    rw [insertNode] at h
    by_cases hc : m.key < p.key
    · rw [if_pos hc] at h
      exact List.mem_cons.mp h |>.imp id id
    · rw [if_neg hc] at h
      rcases List.mem_cons.mp h with h1 | h2
      · exact Or.inr (h1 ▸ List.mem_cons_self _ _)
      · rcases mem_insertNode rest n m h2 with h3 | h4
        · exact Or.inl h3
        · exact Or.inr (List.mem_cons_of_mem _ h4)

theorem mem_sortNodes : ∀ (l : List Node) (n : Node), n ∈ sortNodes l → n ∈ l
  | [], _, h => by simp [sortNodes] at h
  | p :: rest, n, h => by
    rw [sortNodes] at h
    rcases mem_insertNode _ n p h with h1 | h2
    · exact h1 ▸ List.mem_cons_self _ _
    · exact List.mem_cons_of_mem _ (mem_sortNodes rest n h2)

/-- Inserting a batch of entries that are all already stored in their
sorted target blocks, below the rebalance threshold, is the identity. -/
theorem addNodes_dup (ch : ConsistentHash) (ns : List Node)
    (hsorted : allBlocksSortedB ch = true)
    (hpresent : ∀ n ∈ ns, nodeStoredB ch n = true)
    (hT : 1 ≤ ch.totalBlocks)
    (hnobal : (ch.totalKeys + ns.length) / ch.blockPartitioning / 2 ≤ ch.totalBlocks) :
    addNodes ns ch = ch := by
  simp only [addNodes]
  rw [balanceBlocks_noop ch _ hT hnobal]
  exact foldl_addNode_dup ch hsorted (sortNodes ns)
    (fun n hn => hpresent n (mem_sortNodes ns n hn))

/-- C10 (amended): inserting a position entry whose position already
exists in its strictly sorted target block leaves the whole state
unchanged (theorem addNode_dup above), and adding a value that is
already present (all of its derived positions stored in their sorted
target blocks) leaves the block index and totalKeys identical, provided
the insertion does not push the expected block count past the doubling
threshold of the rebalance; a re-add that does trigger the rebalance
can lose stored positions and change totalKeys (counterexample). -/
theorem claim_C10 (ch : ConsistentHash) (r : Nat) (X : Bytes)
    (hr : 1 ≤ r)
    (hT : 1 ≤ ch.totalBlocks)
    (hsorted : allBlocksSortedB ch = true)
    (hpresent : ∀ n ∈ derivedNodes ch.hash r X, nodeStoredB ch n = true)
    (hnobal : (ch.totalKeys + r) / ch.blockPartitioning / 2 ≤ ch.totalBlocks) :
    (add r [X] ch).blocks = ch.blocks ∧ (add r [X] ch).totalKeys = ch.totalKeys := by
  have hlen : (derivedNodes ch.hash r X).length = r := by
    simp [derivedNodes]
    omega
  have hacc : (List.foldl (addKey r) (ch, [], 0) [X]).2.1 = derivedNodes ch.hash r X := by
    simp [addKey, derivedNodes, List.map_map]
  have hdup : addNodes (derivedNodes ch.hash r X) (List.foldl (addKey r) (ch, [], 0) [X]).1 =
      (List.foldl (addKey r) (ch, [], 0) [X]).1 := by
    refine addNodes_dup _ _ hsorted hpresent hT ?_
    rw [hlen]
    exact hnobal
  constructor
  · show (addNodes (List.foldl (addKey r) (ch, [], 0) [X]).2.1
      (List.foldl (addKey r) (ch, [], 0) [X]).1).blocks = ch.blocks
    rw [hacc, hdup]
    rfl
  · show (addNodes (List.foldl (addKey r) (ch, [], 0) [X]).2.1
      (List.foldl (addKey r) (ch, [], 0) [X]).1).totalKeys = ch.totalKeys
    rw [hacc, hdup]
    rfl

/-- C10 witness: re-adding the single present value of a one-node ring
below the rebalance threshold leaves blocks and totalKeys unchanged. -/
theorem claim_C10_witness :
    1 ≤ 1 ∧
    1 ≤ chC9.totalBlocks ∧
    allBlocksSortedB chC9 = true ∧
    (∀ n ∈ derivedNodes chC9.hash 1 [1], nodeStoredB chC9 n = true) ∧
    (chC9.totalKeys + 1) / chC9.blockPartitioning / 2 ≤ chC9.totalBlocks ∧
    ((add 1 [[1]] chC9).blocks = chC9.blocks ∧ (add 1 [[1]] chC9).totalKeys = chC9.totalKeys) :=
  ⟨by decide, by decide, by decide, by decide, by decide,
    claim_C10 chC9 1 [1] (by decide) (by decide) (by decide) (by decide) (by decide)⟩

end CH
